import Mathlib

/-!
Verification of the data-loading/cleaning core of `health_inequality_app.py`.

The program's tabular data (a pandas `DataFrame`) is embedded column-major:
a table is a list of named columns, each column a list of cells.  A cell is
a raw string (as parsed from CSV text), a number (rationals model the
floating-point values), or the missing marker (`NaN`).  The cleaning steps
of `load_data` (lines 43-63 of the source) are translated one by one:
placeholder replacement, header normalization, numeric coercion over the
fixed `NUMERIC_COLS` list, and the two derived gap columns.  File-system
access (`os.path.exists`) and the CSV parser (`pd.read_csv`) are external
library calls; they enter the model as an environment containing an
existence predicate and a parse outcome per path.
-/

/-- A cell of the table: a raw string, a parsed number, or the missing
marker (pandas `NaN`). -/
inductive Val : Type
  | str (s : String)
  | num (q : ℚ)
  | na
  deriving DecidableEq

/-- A data frame, column-major: a list of (column name, cells) pairs. -/
abbrev DF := List (String × List Val)

/-- One cell of `df.replace("..", np.nan)` (line 44): a cell equal to the
exact two-character placeholder string becomes missing, any other cell is
untouched. -/
def replaceVal (v : Val) : Val := if v = Val.str ".." then Val.na else v

/-- `df.replace("..", np.nan)` (line 44), applied to every cell of every
column. -/
def replaceDots (df : DF) : DF := df.map (fun c => (c.1, c.2.map replaceVal))

/-- Python's `str.strip()` on a list of characters: drop whitespace from
both ends. -/
def stripChars (l : List Char) : List Char :=
  ((l.dropWhile Char.isWhitespace).reverse.dropWhile Char.isWhitespace).reverse

/-- One column name under line 47: remove every byte-order-mark character
(the `str.replace` with the U+FEFF literal, `regex=False`), then trim
surrounding whitespace (`str.strip()`). -/
def normName (s : String) : String :=
  String.mk (stripChars (s.data.filter (fun c => c ≠ '\uFEFF')))

/-- Line 47 applied to all column names. -/
def normHeaders (df : DF) : DF := df.map (fun c => (normName c.1, c.2))

/-- Value of a list of decimal digit characters. -/
def digitsVal (l : List Char) : ℕ := l.foldl (fun a c => 10 * a + (c.toNat - 48)) 0

/-- Model of the numeric literals accepted by `pd.to_numeric` on a string
with the sign already removed: decimal digits with an optional single
decimal point (at least one digit overall).  Exotic forms (exponents,
`inf`, `nan`) are outside the model; they do not affect any claim. -/
def parseUnsigned (l : List Char) : Option ℚ :=
  let ip := l.takeWhile (fun c => c ≠ '.')
  let rest := l.dropWhile (fun c => c ≠ '.')
  match rest with
  | [] => if !ip.isEmpty && ip.all Char.isDigit then some (digitsVal ip) else none
  | _ :: fp =>
      if (!ip.isEmpty || !fp.isEmpty) && ip.all Char.isDigit && fp.all Char.isDigit
          && fp.all (fun c => c ≠ '.') then
        some ((digitsVal ip : ℚ) + (digitsVal fp : ℚ) / (10 : ℚ) ^ fp.length)
      else none

/-- Model of `pd.to_numeric` string parsing: surrounding whitespace is
ignored, then an optional sign followed by a decimal literal. -/
def parseRat (s : String) : Option ℚ :=
  match stripChars s.data with
  | '-' :: t => (parseUnsigned t).map (fun q => -q)
  | '+' :: t => parseUnsigned t
  | t => parseUnsigned t

/-- One cell of `pd.to_numeric(df[col], errors="coerce")` (line 52):
numbers and missing cells pass through, a string cell parses to a number
or silently coerces to missing. -/
def toNumCell (v : Val) : Val :=
  match v with
  | Val.str s => match parseRat s with | some q => Val.num q | none => Val.na
  | Val.num q => Val.num q
  | Val.na => Val.na

/-- `col in df.columns`. -/
def hasCol (df : DF) (name : String) : Bool := df.any (fun c => c.1 == name)

/-- `df[col] = pd.to_numeric(df[col], errors="coerce")` (line 52): the
named column's cells are coerced, every other column is untouched. -/
def coerceCol (df : DF) (name : String) : DF :=
  df.map (fun c => if c.1 == name then (c.1, c.2.map toNumCell) else c)

/-- The fixed numeric column list of the source (lines 22-28). -/
def NUMERIC_COLS : List String :=
  ["HDI rank", "GII VALUE", "GII RANK",
   "Maternal_mortality", "Adolescent_birth_rate",
   "Seats_parliamentt(% held by women)",
   "F_secondary_educ", "M_secondary_educ",
   "F_Labour_force", "M_Labour_force"]

/-- One iteration of the loop at lines 50-52: coerce the column if it is
present, otherwise skip it. -/
def coerceStep (df : DF) (name : String) : DF :=
  if hasCol df name then coerceCol df name else df

/-- The loop at lines 50-52 over all of `NUMERIC_COLS`. -/
def coerceNumerics (df : DF) : DF := NUMERIC_COLS.foldl coerceStep df

/-- `df[name]` as a column of cells: the first column carrying the name
(empty when absent; the source never reads an absent column). -/
def getCol (df : DF) (name : String) : List Val :=
  match df.find? (fun c => c.1 == name) with
  | some c => c.2
  | none => []

/-- The number of rows of the frame (the length of its columns; for the
frames the program builds all columns have equal length). -/
def nrows (df : DF) : ℕ :=
  match df with
  | [] => 0
  | c :: _ => c.2.length

/-- `df[name] = col`: overwrite the cells of every column carrying the
name in place, or append a new column at the right end when absent —
pandas column assignment. -/
def setCol (df : DF) (name : String) (col : List Val) : DF :=
  if hasCol df name then df.map (fun c => if c.1 == name then (c.1, col) else c)
  else df ++ [(name, col)]

/-- Cell-wise subtraction of two columns (`df[a] - df[b]`): a number when
both operands are numbers, missing (`NaN` propagation) otherwise. -/
def subVal : Val → Val → Val
  | Val.num a, Val.num b => Val.num (a - b)
  | _, _ => Val.na

/-- `df[a] - df[b]` over whole columns. -/
def subCols (a b : List Val) : List Val := List.zipWith subVal a b

/-- The cells assigned to `Edu_gap` (lines 55-58): the male minus female
secondary-education difference when both source columns exist, an
all-missing column otherwise. -/
def eduGapCol (df : DF) : List Val :=
  if hasCol df "F_secondary_educ" && hasCol df "M_secondary_educ" then
    subCols (getCol df "M_secondary_educ") (getCol df "F_secondary_educ")
  else List.replicate (nrows df) Val.na

/-- Lines 55-58: `df["Edu_gap"] = ...`. -/
def addEduGap (df : DF) : DF := setCol df "Edu_gap" (eduGapCol df)

/-- The cells assigned to `Labour_gap` (lines 60-63). -/
def labourGapCol (df : DF) : List Val :=
  if hasCol df "F_Labour_force" && hasCol df "M_Labour_force" then
    subCols (getCol df "M_Labour_force") (getCol df "F_Labour_force")
  else List.replicate (nrows df) Val.na

/-- Lines 60-63: `df["Labour_gap"] = ...`. -/
def addLabourGap (df : DF) : DF := setCol df "Labour_gap" (labourGapCol df)

/-- Lines 43-52 of the cleaning, in source order: placeholder replacement,
header normalization, numeric coercion. -/
def preClean (df : DF) : DF := coerceNumerics (normHeaders (replaceDots df))

/-- The whole cleaning transformation of `load_data` after a successful
parse (lines 43-63), in source order: placeholder replacement, header
normalization, numeric coercion, then the two derived columns. -/
def clean (df : DF) : DF := addLabourGap (addEduGap (preClean df))

/-- The external world seen by `load_data`: `os.path.exists` and the
outcome of `pd.read_csv` for each path (a parsed table, or the message of
the exception the parser raised). -/
structure FileEnv where
  has : String → Bool
  read : String → Except String DF

/-- `load_data` (lines 32-65): existence check, parse with the exception
caught, then cleaning; returns the pandas-style pair
`(table or None, error message or None)`. -/
def load_data (env : FileEnv) (path : String) : Option DF × Option String :=
  if env.has path = false then
    (none, some ("File not found at: " ++ path))
  else
    match env.read path with
    | Except.error e => (none, some ("Error reading CSV: " ++ e))
    | Except.ok df => (some (clean df), none)

/-- The numeric content of a cell (`NaN` and raw strings carry none). -/
def numOf (v : Val) : Option ℚ :=
  match v with
  | Val.num q => some q
  | _ => none

/-- The numeric, non-missing entries of a column — the values pandas
`describe` aggregates over. -/
def numVals (cells : List Val) : List ℚ := cells.filterMap numOf

/-- Sum of a list of rationals. -/
def qsum (l : List ℚ) : ℚ := l.foldr (fun a b => a + b) 0

/-- `Series.quantile` with the default linear interpolation, on an already
sorted list: the value at fractional position `p * (n - 1)`. -/
def quantileOf (p : ℚ) (s : List ℚ) : Option ℚ :=
  match s with
  | [] => none
  | _ :: _ =>
    let h : ℚ := p * ((s.length : ℚ) - 1)
    let f : ℕ := h.floor.toNat
    match s[f]?, s[f + 1]? with
    | some a, some b => some (a + (h - (f : ℚ)) * (b - a))
    | some a, none => some a
    | none, _ => none

/-- The sample variance (`ddof=1`, pandas' default): defined from two
values on; `describe`'s `std` row is its square root, which is carried
here unrooted because it is in general irrational. -/
def sampleVarOf (l : List ℚ) : Option ℚ :=
  if 2 ≤ l.length then
    let μ := qsum l / (l.length : ℚ)
    some (qsum (l.map (fun x => (x - μ) ^ 2)) / ((l.length : ℚ) - 1))
  else none

/-- One row of `describe().T` (line 72): the count of non-missing values
and the aggregate statistics of one numeric column.  `var` stands for the
reported standard deviation (it is its square). -/
structure ColSummary where
  count : ℕ
  mean : Option ℚ
  var : Option ℚ
  min : Option ℚ
  q25 : Option ℚ
  q50 : Option ℚ
  q75 : Option ℚ
  max : Option ℚ
  deriving DecidableEq

/-- Model of pandas `describe()` on one numeric column: count, mean,
deviation, minimum, the three quartile boundaries and maximum, computed
over the non-missing values. -/
def summarize (cells : List Val) : ColSummary :=
  let l := numVals cells
  let s := List.insertionSort (fun a b => a ≤ b) l
  { count := l.length
    mean := if l.length = 0 then none else some (qsum l / (l.length : ℚ))
    var := sampleVarOf l
    min := s.head?
    q25 := quantileOf (1 / 4) s
    q50 := quantileOf (1 / 2) s
    q75 := quantileOf (3 / 4) s
    max := s.getLast? }

/-- A non-null cell (anything but `NaN`); `describe`'s `count` row counts
these. -/
def notNa (v : Val) : Bool :=
  match v with
  | Val.na => false
  | _ => true

/-- A column of numeric dtype in the `Val` model: every cell is a number
or `NaN`.  A column that `read_csv` types as `object` keeps at least one
raw string cell. -/
def isNumCol (cells : List Val) : Bool :=
  cells.all (fun v =>
    match v with
    | Val.str _ => false
    | _ => true)

/-- One row of `describe().T` (line 72): a numeric-statistics row for a
numeric-dtype column, or pandas' object-dtype row for a non-numeric
column — its `count` of non-null entries and `unique` count of distinct
non-null values (`top`/`freq`, whose tie-breaking pandas leaves
unspecified, are outside the model). -/
inductive DescribeRow : Type
  | numeric (s : ColSummary)
  | object (count : ℕ) (unique : ℕ)
  deriving DecidableEq

/-- `safe_numeric_summary` (lines 68-72): keep the candidate names present
in the table; an empty remainder yields the explicitly empty frame,
otherwise `df[cols].describe().T`.  With pandas' default `include`,
`describe` on a frame with at least one numeric column keeps only the
numeric columns and gives each a numeric-statistics row; on an all-object
frame it instead gives every column an object-dtype row. -/
def safe_numeric_summary (df : DF) (cols : List String) : List (String × DescribeRow) :=
  let present := cols.filter (fun c => hasCol df c)
  if present.isEmpty then []
  else
    let numPresent := present.filter (fun c => isNumCol (getCol df c))
    if numPresent.isEmpty then
      present.map (fun c => (c, DescribeRow.object ((getCol df c).countP notNa)
        (((getCol df c).filter (fun v => v ≠ Val.na)).dedup.length)))
    else
      numPresent.map (fun c => (c, DescribeRow.numeric (summarize (getCol df c))))

/-! ### Basic cell-level lemmas -/

/-- A cell is "numeric-clean" when it is a number or missing — the shape
`pd.to_numeric` leaves behind. -/
def NumNa (v : Val) : Prop := v = Val.na ∨ ∃ q, v = Val.num q

theorem replaceVal_ne_dots (v : Val) : replaceVal v ≠ Val.str ".." := by
  unfold replaceVal
  split
  · exact fun h => Val.noConfusion h
  · assumption

theorem replaceVal_of_dots : replaceVal (Val.str "..") = Val.na := rfl

theorem replaceVal_eq_self (v : Val) (h : v ≠ Val.str "..") : replaceVal v = v := by
  unfold replaceVal
  split
  · exact absurd (by assumption) h
  · rfl

theorem toNumCell_numNa (v : Val) : NumNa (toNumCell v) := by
  unfold NumNa toNumCell
  cases v with
  | str s => cases h : parseRat s <;> simp [h]
  | num q => exact Or.inr ⟨q, rfl⟩
  | na => exact Or.inl rfl

theorem toNumCell_eq_self (v : Val) (h : NumNa v) : toNumCell v = v := by
  rcases h with h | ⟨q, h⟩ <;> subst h <;> rfl

theorem numNa_ne_str (v : Val) (h : NumNa v) (s : String) : v ≠ Val.str s := by
  rcases h with h | ⟨q, h⟩ <;> subst h <;> exact fun h => Val.noConfusion h

theorem subVal_numNa (a b : Val) : NumNa (subVal a b) := by
  unfold NumNa
  cases a <;> cases b <;> simp [subVal]

theorem subVal_na_left (b : Val) : subVal Val.na b = Val.na := by cases b <;> rfl

theorem subVal_na_right (a : Val) : subVal a Val.na = Val.na := by cases a <;> rfl

/-! ### Header normalization is idempotent -/

theorem dropWhile_idem (p : Char → Bool) (l : List Char) :
    List.dropWhile p (List.dropWhile p l) = List.dropWhile p l := by
  induction l with
  | nil => rfl
  | cons a t ih =>
      by_cases h : p a = true
      · simp [List.dropWhile, h, ih]
      · simp [List.dropWhile, h]

theorem mem_of_mem_dropWhile (p : Char → Bool) (l : List Char) (a : Char)
    (h : a ∈ List.dropWhile p l) : a ∈ l := by
  induction l with
  | nil => exact absurd h (List.not_mem_nil a)
  | cons b t ih =>
      by_cases hb : p b = true
      · simp only [List.dropWhile, hb] at h
        exact List.mem_cons_of_mem _ (ih h)
      · simp only [List.dropWhile, hb] at h
        simpa using h

theorem mem_of_mem_stripChars (l : List Char) (a : Char) (h : a ∈ stripChars l) : a ∈ l := by
  unfold stripChars at h
  rw [List.mem_reverse] at h
  have h1 := mem_of_mem_dropWhile _ _ _ h
  rw [List.mem_reverse] at h1
  exact mem_of_mem_dropWhile _ _ _ h1

theorem dropWhile_head_false {α : Type} (p : α → Bool) (l : List α) (a : α)
    (h : (l.dropWhile p).head? = some a) : p a = false := by
  have h1 := List.head?_dropWhile_not p l
  rw [h] at h1
  exact h1

theorem dropWhile_eq_self_of_head {α : Type} (p : α → Bool) (l : List α)
    (h : ∀ a, l.head? = some a → p a = false) : l.dropWhile p = l := by
  cases l with
  | nil => rfl
  | cons a t =>
      have ha := h a rfl
      simp [List.dropWhile_cons, ha]

theorem stripChars_def (l : List Char) :
    stripChars l =
      ((l.dropWhile Char.isWhitespace).reverse.dropWhile Char.isWhitespace).reverse := rfl

theorem stripChars_dropWhile (l : List Char) :
    (stripChars l).dropWhile Char.isWhitespace = stripChars l := by
  apply dropWhile_eq_self_of_head
  intro a ha
  rw [stripChars_def, List.head?_reverse] at ha
  obtain ⟨t, ht⟩ :=
    List.dropWhile_suffix (l := (l.dropWhile Char.isWhitespace).reverse) Char.isWhitespace
  have h2 : ((l.dropWhile Char.isWhitespace).reverse).getLast? = some a := by
    rw [← ht, List.getLast?_append, ha]
    rfl
  rw [List.getLast?_reverse] at h2
  exact dropWhile_head_false _ _ _ h2

theorem stripChars_idem (l : List Char) : stripChars (stripChars l) = stripChars l := by
  rw [stripChars_def (stripChars l), stripChars_dropWhile, stripChars_def l,
    List.reverse_reverse, dropWhile_idem]

theorem normName_def (s : String) :
    normName s = String.mk (stripChars (s.data.filter (fun c => c ≠ '﻿'))) := rfl

theorem normName_idem (s : String) : normName (normName s) = normName s := by
  rw [normName_def s, normName_def]
  have hdata : (String.mk (stripChars (s.data.filter (fun c => c ≠ '﻿')))).data
      = stripChars (s.data.filter (fun c => c ≠ '﻿')) := rfl
  rw [hdata]
  have hfil : (stripChars (s.data.filter (fun c => c ≠ '﻿'))).filter
      (fun c => c ≠ '﻿') = stripChars (s.data.filter (fun c => c ≠ '﻿')) := by
    apply List.filter_eq_self.mpr
    intro a ha
    exact (List.mem_filter.mp (mem_of_mem_stripChars _ _ ha)).2
  rw [hfil, stripChars_idem]

/-! ### Generic list helpers -/

theorem map_eq_self_of {α : Type} (l : List α) (f : α → α) (h : ∀ a ∈ l, f a = a) :
    l.map f = l := by
  induction l with
  | nil => rfl
  | cons a t ih =>
      simp only [List.map_cons, h a (List.mem_cons_self a t)]
      rw [ih (fun b hb => h b (List.mem_cons_of_mem a hb))]

theorem foldl_fixed {α β : Type} (step : β → α → β) (l : List α) (d : β)
    (h : ∀ a ∈ l, step d a = d) : l.foldl step d = d := by
  induction l with
  | nil => rfl
  | cons a t ih =>
      rw [List.foldl_cons, h a (List.mem_cons_self a t)]
      exact ih (fun b hb => h b (List.mem_cons_of_mem a hb))

/-! ### Column names through the pipeline -/

theorem map_fst_eq (l : DF) (f : String × List Val → String × List Val)
    (h : ∀ c ∈ l, (f c).1 = c.1) : (l.map f).map Prod.fst = l.map Prod.fst := by
  induction l with
  | nil => rfl
  | cons a t ih =>
      simp only [List.map_cons, h a (List.mem_cons_self a t)]
      rw [ih (fun b hb => h b (List.mem_cons_of_mem a hb))]

theorem fst_replaceDots (df : DF) : (replaceDots df).map Prod.fst = df.map Prod.fst :=
  map_fst_eq df _ (fun _ _ => rfl)

theorem fst_coerceCol (df : DF) (n : String) :
    (coerceCol df n).map Prod.fst = df.map Prod.fst := by
  apply map_fst_eq
  intro c _
  by_cases h : (c.1 == n) = true <;> simp [h]

theorem fst_coerceStep (df : DF) (n : String) :
    (coerceStep df n).map Prod.fst = df.map Prod.fst := by
  unfold coerceStep
  split
  · exact fst_coerceCol df n
  · rfl

theorem fst_foldl_coerceStep (cols : List String) (df : DF) :
    (cols.foldl coerceStep df).map Prod.fst = df.map Prod.fst := by
  induction cols generalizing df with
  | nil => rfl
  | cons a t ih => rw [List.foldl_cons, ih, fst_coerceStep]

theorem fst_coerceNumerics (df : DF) :
    (coerceNumerics df).map Prod.fst = df.map Prod.fst :=
  fst_foldl_coerceStep NUMERIC_COLS df

theorem hasCol_eq_names (df : DF) (n : String) :
    hasCol df n = (df.map Prod.fst).any (fun s => s == n) := by
  induction df with
  | nil => rfl
  | cons a t ih =>
      unfold hasCol at ih ⊢
      simp only [List.any_cons, List.map_cons, ih]

theorem hasCol_congr (d d' : DF) (h : d.map Prod.fst = d'.map Prod.fst) (n : String) :
    hasCol d n = hasCol d' n := by
  rw [hasCol_eq_names, hasCol_eq_names, h]

theorem hasCol_preClean (df : DF) (n : String) :
    hasCol (preClean df) n = hasCol (normHeaders (replaceDots df)) n :=
  hasCol_congr _ _ (fst_coerceNumerics _) n

theorem hasCol_false_not_mem (d : DF) (n : String) (h : hasCol d n = false) :
    ∀ c ∈ d, c.1 ≠ n := by
  intro c hc
  unfold hasCol at h
  rw [List.any_eq_false] at h
  have h2 := h c hc
  simpa using h2

/-! ### `setCol` and `getCol` structure -/

theorem getCol_cons (c : String × List Val) (d : DF) (n : String) :
    getCol (c :: d) n = if c.1 == n then c.2 else getCol d n := by
  unfold getCol
  cases h : c.1 == n <;> simp [List.find?_cons, h]

theorem fst_setCol_of_hasCol (d : DF) (n : String) (col : List Val)
    (h : hasCol d n = true) : (setCol d n col).map Prod.fst = d.map Prod.fst := by
  unfold setCol
  rw [if_pos h]
  apply map_fst_eq
  intro c _
  by_cases hc : (c.1 == n) = true <;> simp [hc]

theorem hasCol_setCol_self (d : DF) (n : String) (col : List Val) :
    hasCol (setCol d n col) n = true := by
  unfold setCol
  split
  · rw [hasCol_congr _ d _ n]
    · assumption
    · apply map_fst_eq
      intro c _
      by_cases hc : (c.1 == n) = true <;> simp [hc]
  · simp [hasCol, List.any_append]

theorem hasCol_setCol_ne (d : DF) (n : String) (col : List Val) (m : String)
    (hne : m ≠ n) : hasCol (setCol d n col) m = hasCol d m := by
  unfold setCol
  split
  · apply hasCol_congr
    apply map_fst_eq
    intro c _
    by_cases hc : (c.1 == n) = true <;> simp [hc]
  · have hnm : (n == m) = false := by
      rw [beq_eq_false_iff_ne]
      exact fun h => hne h.symm
    simp [hasCol, List.any_append, hnm]

theorem getCol_overwrite (d : DF) (n : String) (col : List Val) :
    getCol (d.map (fun c => if c.1 == n then (c.1, col) else c)) n =
      if hasCol d n then col else [] := by
  induction d with
  | nil => rfl
  | cons a t ih =>
      simp only [List.map_cons]
      by_cases ha : (a.1 == n) = true
      · rw [if_pos ha, getCol_cons]
        simp [hasCol, ha]
      · rw [if_neg ha, getCol_cons, if_neg ha, ih]
        have ha2 : (a.1 == n) = false := Bool.of_not_eq_true ha
        show _ = if (a.1 == n || t.any fun c => c.1 == n) = true then col else []
        rw [ha2, Bool.false_or]
        rfl

theorem getCol_overwrite_ne (d : DF) (n : String) (col : List Val) (m : String)
    (hne : m ≠ n) :
    getCol (d.map (fun c => if c.1 == n then (c.1, col) else c)) m = getCol d m := by
  induction d with
  | nil => rfl
  | cons a t ih =>
      simp only [List.map_cons]
      by_cases ha : (a.1 == n) = true
      · have ham : (a.1 == m) = false := by
          rw [beq_eq_false_iff_ne]
          intro h
          exact hne (h ▸ eq_of_beq ha)
        rw [if_pos ha, getCol_cons, getCol_cons]
        simp only [ham, if_false, Bool.false_eq_true]
        exact ih
      · rw [if_neg ha, getCol_cons, getCol_cons]
        by_cases ham : (a.1 == m) = true
        · simp [ham]
        · simp only [ham, Bool.false_eq_true, if_false]
          exact ih

theorem getCol_append_single_self (d : DF) (n : String) (col : List Val)
    (h : hasCol d n = false) : getCol (d ++ [(n, col)]) n = col := by
  induction d with
  | nil => simp [getCol, List.find?]
  | cons a t ih =>
      simp only [hasCol, List.any_cons, Bool.or_eq_false_iff] at h
      rw [List.cons_append, getCol_cons, if_neg (by simp [h.1])]
      exact ih (by simpa [hasCol] using h.2)

theorem getCol_append_single_ne (d : DF) (n : String) (col : List Val) (m : String)
    (hne : m ≠ n) : getCol (d ++ [(n, col)]) m = getCol d m := by
  have hnm : (n == m) = false := by
    rw [beq_eq_false_iff_ne]
    exact fun h => hne h.symm
  induction d with
  | nil => simp [getCol, List.find?, hnm]
  | cons a t ih =>
      rw [List.cons_append, getCol_cons, getCol_cons]
      by_cases ham : (a.1 == m) = true
      · simp [ham]
      · simp only [ham, Bool.false_eq_true, if_false]
        exact ih

theorem getCol_setCol_self (d : DF) (n : String) (col : List Val) :
    getCol (setCol d n col) n = col := by
  unfold setCol
  by_cases h : hasCol d n = true
  · rw [if_pos h, getCol_overwrite, if_pos h]
  · rw [if_neg h]
    exact getCol_append_single_self d n col (Bool.of_not_eq_true h)

theorem getCol_setCol_ne (d : DF) (n : String) (col : List Val) (m : String)
    (hne : m ≠ n) : getCol (setCol d n col) m = getCol d m := by
  unfold setCol
  by_cases h : hasCol d n = true
  · rw [if_pos h]
    exact getCol_overwrite_ne d n col m hne
  · rw [if_neg h]
    exact getCol_append_single_ne d n col m hne

theorem setCol_eq_self (d : DF) (n : String) (col : List Val)
    (h1 : hasCol d n = true) (h2 : ∀ c ∈ d, c.1 = n → c.2 = col) :
    setCol d n col = d := by
  unfold setCol
  rw [if_pos h1]
  apply map_eq_self_of
  intro c hc
  by_cases hcn : (c.1 == n) = true
  · rw [if_pos hcn]
    have hv : c.2 = col := h2 c hc (eq_of_beq hcn)
    rw [← hv]
  · rw [if_neg hcn]

/-! ### Invariants of cleaned frames -/

/-- Every cell of every column satisfies `P`. -/
def AllCells (P : Val → Prop) (d : DF) : Prop := ∀ c ∈ d, ∀ v ∈ c.2, P v

/-- Every column named `m` holds only numbers and missing markers. -/
def GoodFor (m : String) (d : DF) : Prop := ∀ c ∈ d, c.1 = m → ∀ v ∈ c.2, NumNa v

/-- Every column name is fixed by header normalization. -/
def NamesNorm (d : DF) : Prop := ∀ c ∈ d, normName c.1 = c.1

theorem allCells_replaceDots (df : DF) :
    AllCells (fun v => v ≠ Val.str "..") (replaceDots df) := by
  intro c hc v hv
  obtain ⟨x, hx, rfl⟩ := List.mem_map.mp hc
  obtain ⟨w, _, rfl⟩ := List.mem_map.mp hv
  exact replaceVal_ne_dots w

theorem allCells_normHeaders (P : Val → Prop) (d : DF) (h : AllCells P d) :
    AllCells P (normHeaders d) := by
  intro c hc v hv
  obtain ⟨x, hx, rfl⟩ := List.mem_map.mp hc
  exact h x hx v hv

theorem allCells_coerceCol (P : Val → Prop) (d : DF) (n : String)
    (hP : ∀ v, P (toNumCell v)) (h : AllCells P d) : AllCells P (coerceCol d n) := by
  intro c hc v hv
  obtain ⟨x, hx, rfl⟩ := List.mem_map.mp hc
  by_cases hxn : (x.1 == n) = true
  · rw [if_pos hxn] at hv
    obtain ⟨w, _, rfl⟩ := List.mem_map.mp hv
    exact hP w
  · rw [if_neg hxn] at hv
    exact h x hx v hv

theorem allCells_coerceStep (P : Val → Prop) (d : DF) (n : String)
    (hP : ∀ v, P (toNumCell v)) (h : AllCells P d) : AllCells P (coerceStep d n) := by
  unfold coerceStep
  split
  · exact allCells_coerceCol P d n hP h
  · exact h

theorem allCells_foldl (P : Val → Prop) (cols : List String) (d : DF)
    (hP : ∀ v, P (toNumCell v)) (h : AllCells P d) :
    AllCells P (cols.foldl coerceStep d) := by
  induction cols generalizing d with
  | nil => exact h
  | cons a t ih => exact ih (coerceStep d a) (allCells_coerceStep P d a hP h)

theorem allCells_setCol (P : Val → Prop) (d : DF) (n : String) (col : List Val)
    (h : AllCells P d) (hcol : ∀ v ∈ col, P v) : AllCells P (setCol d n col) := by
  intro c hc v hv
  unfold setCol at hc
  split at hc
  · obtain ⟨x, hx, rfl⟩ := List.mem_map.mp hc
    by_cases hxn : (x.1 == n) = true
    · rw [if_pos hxn] at hv
      exact hcol v hv
    · rw [if_neg hxn] at hv
      exact h x hx v hv
  · rcases List.mem_append.mp hc with hc1 | hc2
    · exact h c hc1 v hv
    · rw [List.mem_singleton] at hc2
      subst hc2
      exact hcol v hv

theorem subCols_numNa (a b : List Val) : ∀ v ∈ subCols a b, NumNa v := by
  induction a generalizing b with
  | nil => intro v hv; simp [subCols] at hv
  | cons x t ih =>
      intro v hv
      cases b with
      | nil => simp [subCols] at hv
      | cons y u =>
          simp only [subCols, List.zipWith_cons_cons, List.mem_cons] at hv
          rcases hv with rfl | hv
          · exact subVal_numNa x y
          · exact ih u v hv

theorem replicate_na_numNa (k : ℕ) : ∀ v ∈ List.replicate k Val.na, NumNa v := by
  intro v hv
  rw [List.eq_of_mem_replicate hv]
  exact Or.inl rfl

theorem eduGapCol_numNa (d : DF) : ∀ v ∈ eduGapCol d, NumNa v := by
  unfold eduGapCol
  split
  · exact subCols_numNa _ _
  · exact replicate_na_numNa _

theorem labourGapCol_numNa (d : DF) : ∀ v ∈ labourGapCol d, NumNa v := by
  unfold labourGapCol
  split
  · exact subCols_numNa _ _
  · exact replicate_na_numNa _

theorem allCells_clean (df : DF) :
    AllCells (fun v => v ≠ Val.str "..") (clean df) := by
  unfold clean addLabourGap addEduGap preClean coerceNumerics
  refine allCells_setCol _ _ _ _ (allCells_setCol _ _ _ _ ?_ ?_) ?_
  · exact allCells_foldl _ NUMERIC_COLS _
      (fun v => numNa_ne_str _ (toNumCell_numNa v) _)
      (allCells_normHeaders _ _ (allCells_replaceDots df))
  · exact fun v hv => numNa_ne_str v (eduGapCol_numNa _ v hv) _
  · exact fun v hv => numNa_ne_str v (labourGapCol_numNa _ v hv) _

theorem goodFor_coerceCol (m : String) (d : DF) (n : String) (h : GoodFor m d) :
    GoodFor m (coerceCol d n) := by
  intro c hc hm v hv
  obtain ⟨x, hx, rfl⟩ := List.mem_map.mp hc
  by_cases hxn : (x.1 == n) = true
  · rw [if_pos hxn] at hv
    obtain ⟨w, _, rfl⟩ := List.mem_map.mp hv
    exact toNumCell_numNa w
  · rw [if_neg hxn] at hv hm
    exact h x hx hm v hv

theorem goodFor_coerceCol_self (d : DF) (n : String) : GoodFor n (coerceCol d n) := by
  intro c hc hm v hv
  obtain ⟨x, hx, rfl⟩ := List.mem_map.mp hc
  by_cases hxn : (x.1 == n) = true
  · rw [if_pos hxn] at hv
    obtain ⟨w, _, rfl⟩ := List.mem_map.mp hv
    exact toNumCell_numNa w
  · rw [if_neg hxn] at hm
    exact absurd (beq_iff_eq.mpr hm) hxn

theorem goodFor_coerceStep (m : String) (d : DF) (n : String) (h : GoodFor m d) :
    GoodFor m (coerceStep d n) := by
  unfold coerceStep
  split
  · exact goodFor_coerceCol m d n h
  · exact h

theorem goodFor_coerceStep_self (d : DF) (n : String) : GoodFor n (coerceStep d n) := by
  unfold coerceStep
  split
  · exact goodFor_coerceCol_self d n
  · rename_i h
    intro c hc hm
    rw [Bool.not_eq_true] at h
    exact absurd hm (hasCol_false_not_mem d n h c hc)

theorem goodFor_foldl (m : String) (cols : List String) (d : DF) (h : GoodFor m d) :
    GoodFor m (cols.foldl coerceStep d) := by
  induction cols generalizing d with
  | nil => exact h
  | cons a t ih => exact ih (coerceStep d a) (goodFor_coerceStep m d a h)

theorem goodFor_foldl_mem (m : String) (cols : List String) (d : DF)
    (hm : m ∈ cols) : GoodFor m (cols.foldl coerceStep d) := by
  induction cols generalizing d with
  | nil => exact absurd hm (List.not_mem_nil m)
  | cons a t ih =>
      rw [List.foldl_cons]
      rcases List.mem_cons.mp hm with rfl | hmt
      · exact goodFor_foldl m t _ (goodFor_coerceStep_self d m)
      · exact ih _ hmt

theorem goodFor_setCol (m : String) (d : DF) (n : String) (col : List Val)
    (h : GoodFor m d) (hcol : ∀ v ∈ col, NumNa v) : GoodFor m (setCol d n col) := by
  intro c hc hm v hv
  unfold setCol at hc
  split at hc
  · obtain ⟨x, hx, rfl⟩ := List.mem_map.mp hc
    by_cases hxn : (x.1 == n) = true
    · rw [if_pos hxn] at hv
      exact hcol v hv
    · rw [if_neg hxn] at hv hm
      exact h x hx hm v hv
  · rcases List.mem_append.mp hc with hc1 | hc2
    · exact h c hc1 hm v hv
    · rw [List.mem_singleton] at hc2
      subst hc2
      exact hcol v hv

theorem goodFor_clean (df : DF) (m : String) (hm : m ∈ NUMERIC_COLS) :
    GoodFor m (clean df) := by
  unfold clean addLabourGap addEduGap preClean coerceNumerics
  refine goodFor_setCol _ _ _ _ (goodFor_setCol _ _ _ _ ?_ (eduGapCol_numNa _)) (labourGapCol_numNa _)
  exact goodFor_foldl_mem m NUMERIC_COLS _ hm

/-! ### Cleaned frames have normalized names -/

theorem namesNorm_normHeaders (d : DF) : NamesNorm (normHeaders d) := by
  intro c hc
  obtain ⟨x, hx, rfl⟩ := List.mem_map.mp hc
  exact normName_idem x.1

theorem namesNorm_coerceCol (d : DF) (n : String) (h : NamesNorm d) :
    NamesNorm (coerceCol d n) := by
  intro c hc
  obtain ⟨x, hx, rfl⟩ := List.mem_map.mp hc
  by_cases hxn : (x.1 == n) = true
  · rw [if_pos hxn]
    exact h x hx
  · rw [if_neg hxn]
    exact h x hx

theorem namesNorm_coerceStep (d : DF) (n : String) (h : NamesNorm d) :
    NamesNorm (coerceStep d n) := by
  unfold coerceStep
  split
  · exact namesNorm_coerceCol d n h
  · exact h

theorem namesNorm_foldl (cols : List String) (d : DF) (h : NamesNorm d) :
    NamesNorm (cols.foldl coerceStep d) := by
  induction cols generalizing d with
  | nil => exact h
  | cons a t ih => exact ih (coerceStep d a) (namesNorm_coerceStep d a h)

theorem namesNorm_setCol (d : DF) (n : String) (col : List Val)
    (h : NamesNorm d) (hn : normName n = n) : NamesNorm (setCol d n col) := by
  intro c hc
  unfold setCol at hc
  split at hc
  · obtain ⟨x, hx, rfl⟩ := List.mem_map.mp hc
    by_cases hxn : (x.1 == n) = true
    · rw [if_pos hxn]
      exact h x hx
    · rw [if_neg hxn]
      exact h x hx
  · rcases List.mem_append.mp hc with hc1 | hc2
    · exact h c hc1
    · rw [List.mem_singleton] at hc2
      subst hc2
      exact hn

theorem normName_edu : normName "Edu_gap" = "Edu_gap" := by decide

theorem normName_labour : normName "Labour_gap" = "Labour_gap" := by decide

theorem namesNorm_clean (df : DF) : NamesNorm (clean df) := by
  unfold clean addLabourGap addEduGap preClean coerceNumerics
  refine namesNorm_setCol _ _ _ (namesNorm_setCol _ _ _ ?_ normName_edu) normName_labour
  exact namesNorm_foldl NUMERIC_COLS _ (namesNorm_normHeaders _)

/-! ### Each cleaning stage fixes an already-clean frame -/

theorem replaceDots_eq_self (d : DF) (h : AllCells (fun v => v ≠ Val.str "..") d) :
    replaceDots d = d := by
  apply map_eq_self_of
  intro c hc
  have h2 : c.2.map replaceVal = c.2 :=
    map_eq_self_of _ _ (fun v hv => replaceVal_eq_self v (h c hc v hv))
  calc (c.1, c.2.map replaceVal) = (c.1, c.2) := by rw [h2]
  _ = c := rfl

theorem normHeaders_eq_self (d : DF) (h : NamesNorm d) : normHeaders d = d := by
  apply map_eq_self_of
  intro c hc
  calc (normName c.1, c.2) = (c.1, c.2) := by rw [h c hc]
  _ = c := rfl

theorem coerceCol_eq_self (d : DF) (n : String) (h : GoodFor n d) :
    coerceCol d n = d := by
  apply map_eq_self_of
  intro c hc
  by_cases hcn : (c.1 == n) = true
  · rw [if_pos hcn]
    have h2 : c.2.map toNumCell = c.2 :=
      map_eq_self_of _ _ (fun v hv => toNumCell_eq_self v (h c hc (eq_of_beq hcn) v hv))
    calc (c.1, c.2.map toNumCell) = (c.1, c.2) := by rw [h2]
    _ = c := rfl
  · rw [if_neg hcn]

theorem coerceStep_eq_self (d : DF) (n : String) (h : GoodFor n d) :
    coerceStep d n = d := by
  unfold coerceStep
  split
  · exact coerceCol_eq_self d n h
  · rfl

theorem coerceNumerics_eq_self (d : DF) (h : ∀ n ∈ NUMERIC_COLS, GoodFor n d) :
    coerceNumerics d = d :=
  foldl_fixed coerceStep NUMERIC_COLS d (fun n hn => coerceStep_eq_self d n (h n hn))

/-! ### The values carried by freshly assigned columns -/

theorem setCol_named_cells (d : DF) (n : String) (col : List Val) :
    ∀ c ∈ setCol d n col, c.1 = n → c.2 = col := by
  intro c hc hn
  unfold setCol at hc
  split at hc
  · obtain ⟨x, hx, rfl⟩ := List.mem_map.mp hc
    by_cases hxn : (x.1 == n) = true
    · rw [if_pos hxn]
    · rw [if_neg hxn] at hn ⊢
      exact absurd (beq_iff_eq.mpr hn) hxn
  · rcases List.mem_append.mp hc with hc1 | hc2
    · rename_i h
      rw [Bool.not_eq_true] at h
      exact absurd hn (hasCol_false_not_mem d n h c hc1)
    · rw [List.mem_singleton] at hc2
      subst hc2
      rfl

theorem setCol_preserves_named (d : DF) (n : String) (col : List Val) (m : String)
    (P : List Val → Prop) (hne : m ≠ n) (h : ∀ c ∈ d, c.1 = m → P c.2) :
    ∀ c ∈ setCol d n col, c.1 = m → P c.2 := by
  intro c hc hm
  unfold setCol at hc
  split at hc
  · obtain ⟨x, hx, rfl⟩ := List.mem_map.mp hc
    by_cases hxn : (x.1 == n) = true
    · rw [if_pos hxn] at hm
      exact absurd (hm ▸ eq_of_beq hxn : m = n) hne
    · rw [if_neg hxn] at hm ⊢
      exact h x hx hm
  · rcases List.mem_append.mp hc with hc1 | hc2
    · exact h c hc1 hm
    · rw [List.mem_singleton] at hc2
      subst hc2
      exact absurd hm.symm hne

/-! ### Row counts through the pipeline -/

theorem nrows_replaceDots (d : DF) : nrows (replaceDots d) = nrows d := by
  cases d with
  | nil => rfl
  | cons a t => simp [replaceDots, nrows]

theorem nrows_normHeaders (d : DF) : nrows (normHeaders d) = nrows d := by
  cases d with
  | nil => rfl
  | cons a t => simp [normHeaders, nrows]

theorem nrows_coerceCol (d : DF) (n : String) : nrows (coerceCol d n) = nrows d := by
  cases d with
  | nil => rfl
  | cons a t =>
      by_cases ha : a.1 = n <;> simp [coerceCol, nrows, ha]

theorem nrows_coerceStep (d : DF) (n : String) : nrows (coerceStep d n) = nrows d := by
  unfold coerceStep
  split
  · exact nrows_coerceCol d n
  · rfl

theorem nrows_foldl (cols : List String) (d : DF) :
    nrows (cols.foldl coerceStep d) = nrows d := by
  induction cols generalizing d with
  | nil => rfl
  | cons a t ih => rw [List.foldl_cons, ih, nrows_coerceStep]

theorem nrows_preClean (d : DF) : nrows (preClean d) = nrows d := by
  unfold preClean coerceNumerics
  rw [nrows_foldl, nrows_normHeaders, nrows_replaceDots]

theorem nrows_setCol (d : DF) (n : String) (col : List Val)
    (hcol : col.length = nrows d) : nrows (setCol d n col) = nrows d := by
  unfold setCol
  split
  · cases d with
    | nil => rfl
    | cons a t =>
        by_cases ha : a.1 = n <;> simp [nrows, ha]
        exact hcol
  · cases d with
    | nil => simpa [nrows] using hcol
    | cons a t => simp [nrows]

theorem wf_replaceDots (d : DF) (k : ℕ) (h : ∀ c ∈ d, c.2.length = k) :
    ∀ c ∈ replaceDots d, c.2.length = k := by
  intro c hc
  obtain ⟨x, hx, rfl⟩ := List.mem_map.mp hc
  simpa using h x hx

theorem wf_normHeaders (d : DF) (k : ℕ) (h : ∀ c ∈ d, c.2.length = k) :
    ∀ c ∈ normHeaders d, c.2.length = k := by
  intro c hc
  obtain ⟨x, hx, rfl⟩ := List.mem_map.mp hc
  exact h x hx

theorem wf_coerceCol (d : DF) (n : String) (k : ℕ) (h : ∀ c ∈ d, c.2.length = k) :
    ∀ c ∈ coerceCol d n, c.2.length = k := by
  intro c hc
  obtain ⟨x, hx, rfl⟩ := List.mem_map.mp hc
  by_cases hxn : (x.1 == n) = true
  · rw [if_pos hxn]
    simpa using h x hx
  · rw [if_neg hxn]
    exact h x hx

theorem wf_coerceStep (d : DF) (n : String) (k : ℕ) (h : ∀ c ∈ d, c.2.length = k) :
    ∀ c ∈ coerceStep d n, c.2.length = k := by
  unfold coerceStep
  split
  · exact wf_coerceCol d n k h
  · exact h

theorem wf_foldl (cols : List String) (d : DF) (k : ℕ) (h : ∀ c ∈ d, c.2.length = k) :
    ∀ c ∈ cols.foldl coerceStep d, c.2.length = k := by
  induction cols generalizing d with
  | nil => exact h
  | cons a t ih => exact ih (coerceStep d a) (wf_coerceStep d a k h)

theorem wf_preClean (d : DF) (k : ℕ) (h : ∀ c ∈ d, c.2.length = k) :
    ∀ c ∈ preClean d, c.2.length = k := by
  unfold preClean coerceNumerics
  exact wf_foldl NUMERIC_COLS _ k (wf_normHeaders _ k (wf_replaceDots d k h))

theorem wf_setCol (d : DF) (n : String) (col : List Val) (k : ℕ)
    (h : ∀ c ∈ d, c.2.length = k) (hcol : col.length = k) :
    ∀ c ∈ setCol d n col, c.2.length = k := by
  intro c hc
  unfold setCol at hc
  split at hc
  · obtain ⟨x, hx, rfl⟩ := List.mem_map.mp hc
    by_cases hxn : (x.1 == n) = true
    · rw [if_pos hxn]
      exact hcol
    · rw [if_neg hxn]
      exact h x hx
  · rcases List.mem_append.mp hc with hc1 | hc2
    · exact h c hc1
    · rw [List.mem_singleton] at hc2
      subst hc2
      exact hcol

theorem length_getCol (d : DF) (n : String) (k : ℕ)
    (h : ∀ c ∈ d, c.2.length = k) (hc : hasCol d n = true) :
    (getCol d n).length = k := by
  unfold getCol
  cases hf : d.find? (fun c => c.1 == n) with
  | some c => exact h c (List.mem_of_find?_eq_some hf)
  | none =>
      exfalso
      rw [List.find?_eq_none] at hf
      unfold hasCol at hc
      rw [List.any_eq_true] at hc
      obtain ⟨c, hcd, hcn⟩ := hc
      exact hf c hcd hcn

theorem length_eduGapCol (d : DF) (k : ℕ)
    (h : ∀ c ∈ d, c.2.length = k) (hn : nrows d = k) : (eduGapCol d).length = k := by
  unfold eduGapCol
  split
  · rename_i hcond
    rw [Bool.and_eq_true] at hcond
    unfold subCols
    rw [List.length_zipWith, length_getCol d _ k h hcond.1, length_getCol d _ k h hcond.2,
      Nat.min_self]
  · rw [List.length_replicate, hn]

theorem length_labourGapCol (d : DF) (k : ℕ)
    (h : ∀ c ∈ d, c.2.length = k) (hn : nrows d = k) : (labourGapCol d).length = k := by
  unfold labourGapCol
  split
  · rename_i hcond
    rw [Bool.and_eq_true] at hcond
    unfold subCols
    rw [List.length_zipWith, length_getCol d _ k h hcond.1, length_getCol d _ k h hcond.2,
      Nat.min_self]
  · rw [List.length_replicate, hn]

theorem wf_clean (df : DF) (hw : ∀ c ∈ df, c.2.length = nrows df) :
    (∀ c ∈ clean df, c.2.length = nrows df) ∧ nrows (clean df) = nrows df := by
  have hP : ∀ c ∈ preClean df, c.2.length = nrows df := wf_preClean df _ hw
  have hnP : nrows (preClean df) = nrows df := nrows_preClean df
  have hE : (eduGapCol (preClean df)).length = nrows df := length_eduGapCol _ _ hP hnP
  have hwE : ∀ c ∈ addEduGap (preClean df), c.2.length = nrows df := by
    unfold addEduGap
    exact wf_setCol _ _ _ _ hP hE
  have hnE : nrows (addEduGap (preClean df)) = nrows df := by
    unfold addEduGap
    rw [nrows_setCol _ _ _ (hE.trans hnP.symm), hnP]
  have hL : (labourGapCol (addEduGap (preClean df))).length = nrows df :=
    length_labourGapCol _ _ hwE hnE
  constructor
  · show ∀ c ∈ addLabourGap (addEduGap (preClean df)), c.2.length = nrows df
    unfold addLabourGap
    exact wf_setCol _ _ _ _ hwE hL
  · show nrows (addLabourGap (addEduGap (preClean df))) = nrows df
    unfold addLabourGap
    rw [nrows_setCol _ _ _ (hL.trans hnE.symm), hnE]

theorem hasCol_clean_vs_edu (df : DF) (m : String) (h2 : m ≠ "Labour_gap") :
    hasCol (clean df) m = hasCol (addEduGap (preClean df)) m := by
  unfold clean addLabourGap
  exact hasCol_setCol_ne _ _ _ m h2

theorem getCol_clean_vs_edu (df : DF) (m : String) (h2 : m ≠ "Labour_gap") :
    getCol (clean df) m = getCol (addEduGap (preClean df)) m := by
  unfold clean addLabourGap
  exact getCol_setCol_ne _ _ _ m h2

theorem hasCol_edu_vs_pre (df : DF) (m : String) (h1 : m ≠ "Edu_gap") :
    hasCol (addEduGap (preClean df)) m = hasCol (preClean df) m := by
  unfold addEduGap
  exact hasCol_setCol_ne _ _ _ m h1

theorem getCol_edu_vs_pre (df : DF) (m : String) (h1 : m ≠ "Edu_gap") :
    getCol (addEduGap (preClean df)) m = getCol (preClean df) m := by
  unfold addEduGap
  exact getCol_setCol_ne _ _ _ m h1

theorem hasCol_clean_other (df : DF) (m : String) (h1 : m ≠ "Edu_gap")
    (h2 : m ≠ "Labour_gap") : hasCol (clean df) m = hasCol (preClean df) m :=
  (hasCol_clean_vs_edu df m h2).trans (hasCol_edu_vs_pre df m h1)

theorem getCol_clean_other (df : DF) (m : String) (h1 : m ≠ "Edu_gap")
    (h2 : m ≠ "Labour_gap") : getCol (clean df) m = getCol (preClean df) m :=
  (getCol_clean_vs_edu df m h2).trans (getCol_edu_vs_pre df m h1)

theorem nrows_addEduGap (df : DF) (hw : ∀ c ∈ df, c.2.length = nrows df) :
    nrows (addEduGap (preClean df)) = nrows df := by
  unfold addEduGap
  rw [nrows_setCol _ _ _
    ((length_eduGapCol _ _ (wf_preClean df _ hw) (nrows_preClean df)).trans
      (nrows_preClean df).symm), nrows_preClean]

theorem eduGapCol_clean (df : DF) (hw : ∀ c ∈ df, c.2.length = nrows df) :
    eduGapCol (clean df) = eduGapCol (preClean df) := by
  unfold eduGapCol
  rw [hasCol_clean_other df _ (by decide) (by decide),
    hasCol_clean_other df _ (by decide) (by decide),
    getCol_clean_other df _ (by decide) (by decide),
    getCol_clean_other df _ (by decide) (by decide),
    (wf_clean df hw).2, nrows_preClean]

theorem labourGapCol_clean (df : DF) (hw : ∀ c ∈ df, c.2.length = nrows df) :
    labourGapCol (clean df) = labourGapCol (addEduGap (preClean df)) := by
  unfold labourGapCol
  rw [hasCol_clean_vs_edu df _ (by decide), hasCol_clean_vs_edu df _ (by decide),
    getCol_clean_vs_edu df _ (by decide), getCol_clean_vs_edu df _ (by decide),
    (wf_clean df hw).2, nrows_addEduGap df hw]

theorem preClean_clean (df : DF) : preClean (clean df) = clean df := by
  unfold preClean
  rw [replaceDots_eq_self _ (allCells_clean df), normHeaders_eq_self _ (namesNorm_clean df),
    coerceNumerics_eq_self _ (fun n hn => goodFor_clean df n hn)]

theorem hasCol_clean_edu (df : DF) : hasCol (clean df) "Edu_gap" = true := by
  rw [hasCol_clean_vs_edu df _ (by decide)]
  unfold addEduGap
  exact hasCol_setCol_self _ _ _

theorem hasCol_clean_labour (df : DF) : hasCol (clean df) "Labour_gap" = true := by
  unfold clean addLabourGap
  exact hasCol_setCol_self _ _ _

theorem eduCols_clean (df : DF) :
    ∀ c ∈ clean df, c.1 = "Edu_gap" → c.2 = eduGapCol (preClean df) := by
  unfold clean addLabourGap
  exact setCol_preserves_named _ _ _ _ (fun l => l = eduGapCol (preClean df)) (by decide)
    (by unfold addEduGap; exact setCol_named_cells _ _ _)

theorem labourCols_clean (df : DF) :
    ∀ c ∈ clean df, c.1 = "Labour_gap" → c.2 = labourGapCol (addEduGap (preClean df)) := by
  unfold clean addLabourGap
  exact setCol_named_cells _ _ _

theorem addEduGap_clean (df : DF) (hw : ∀ c ∈ df, c.2.length = nrows df) :
    addEduGap (clean df) = clean df := by
  unfold addEduGap
  apply setCol_eq_self _ _ _ (hasCol_clean_edu df)
  intro c hc h1
  rw [eduGapCol_clean df hw]
  exact eduCols_clean df c hc h1

theorem addLabourGap_clean (df : DF) (hw : ∀ c ∈ df, c.2.length = nrows df) :
    addLabourGap (clean df) = clean df := by
  unfold addLabourGap
  apply setCol_eq_self _ _ _ (hasCol_clean_labour df)
  intro c hc h1
  rw [labourGapCol_clean df hw]
  exact labourCols_clean df c hc h1

/-- C6: the cleaning transformation (placeholder replacement, header
normalization, numeric coercion, derived-column computation) is
idempotent: on any rectangular parsed table (every column as long as the
frame's row count), cleaning twice yields the same table as cleaning
once. -/
theorem clean_idempotent (df : DF) (hw : ∀ c ∈ df, c.2.length = nrows df) :
    clean (clean df) = clean df := by
  conv_lhs => rw [clean]
  rw [preClean_clean df, addEduGap_clean df hw, addLabourGap_clean df hw]

/-! ### Cells tracked by position -/

theorem getElem?_replaceDots (df : DF) (j : ℕ) :
    (replaceDots df)[j]? = df[j]?.map (fun c => (c.1, c.2.map replaceVal)) := by
  unfold replaceDots
  rw [List.getElem?_map]

theorem getElem?_normHeaders (df : DF) (j : ℕ) :
    (normHeaders df)[j]? = df[j]?.map (fun c => (normName c.1, c.2)) := by
  unfold normHeaders
  rw [List.getElem?_map]

theorem getElem?_coerceStep_untouched (d : DF) (n : String) (j : ℕ)
    (c : String × List Val) (h : d[j]? = some c) (hne : c.1 ≠ n) :
    (coerceStep d n)[j]? = some c := by
  unfold coerceStep
  split
  · unfold coerceCol
    rw [List.getElem?_map, h, Option.map_some']
    have hcn : (c.1 == n) = false := beq_eq_false_iff_ne.mpr hne
    rw [if_neg (by simp [hcn])]
  · exact h

theorem getElem?_foldl_untouched (cols : List String) (d : DF) (j : ℕ)
    (c : String × List Val) (h : d[j]? = some c) (hall : ∀ n ∈ cols, c.1 ≠ n) :
    (cols.foldl coerceStep d)[j]? = some c := by
  induction cols generalizing d with
  | nil => exact h
  | cons a t ih =>
      rw [List.foldl_cons]
      exact ih (coerceStep d a)
        (getElem?_coerceStep_untouched d a j c h (hall a (List.mem_cons_self a t)))
        (fun n hn => hall n (List.mem_cons_of_mem a hn))

theorem getElem?_setCol_untouched (d : DF) (n : String) (col : List Val) (j : ℕ)
    (c : String × List Val) (h : d[j]? = some c) (hne : c.1 ≠ n) :
    (setCol d n col)[j]? = some c := by
  unfold setCol
  split
  · rw [List.getElem?_map, h, Option.map_some']
    have hcn : (c.1 == n) = false := beq_eq_false_iff_ne.mpr hne
    rw [if_neg (by simp [hcn])]
  · obtain ⟨hlt, _⟩ := List.getElem?_eq_some_iff.mp h
    rw [List.getElem?_append_left hlt]
    exact h

theorem getElem?_clean_untouched (df : DF) (j : ℕ) (c : String × List Val)
    (h : df[j]? = some c)
    (hnum : ∀ n ∈ NUMERIC_COLS, normName c.1 ≠ n)
    (hedu : normName c.1 ≠ "Edu_gap") (hlab : normName c.1 ≠ "Labour_gap") :
    (clean df)[j]? = some (normName c.1, c.2.map replaceVal) := by
  have h1 : (replaceDots df)[j]? = some (c.1, c.2.map replaceVal) := by
    rw [getElem?_replaceDots, h]
    rfl
  have h2 : (normHeaders (replaceDots df))[j]? = some (normName c.1, c.2.map replaceVal) := by
    rw [getElem?_normHeaders, h1]
    rfl
  have h3 : (preClean df)[j]? = some (normName c.1, c.2.map replaceVal) := by
    unfold preClean coerceNumerics
    exact getElem?_foldl_untouched NUMERIC_COLS _ j _ h2 hnum
  have h4 : (addEduGap (preClean df))[j]? = some (normName c.1, c.2.map replaceVal) := by
    unfold addEduGap
    exact getElem?_setCol_untouched _ _ _ j _ h3 hedu
  unfold clean addLabourGap
  exact getElem?_setCol_untouched _ _ _ j _ h4 hlab

/-- A missing cell at a fixed (column, row) position, in a column carrying
a fixed name. -/
def CellNa (d : DF) (j i : ℕ) (nm : String) : Prop :=
  ∃ c, d[j]? = some c ∧ c.1 = nm ∧ c.2[i]? = some Val.na

theorem cellNa_coerceCol (d : DF) (n : String) (j i : ℕ) (nm : String)
    (h : CellNa d j i nm) : CellNa (coerceCol d n) j i nm := by
  obtain ⟨c, hj, hnm, hi⟩ := h
  unfold coerceCol
  by_cases hcn : (c.1 == n) = true
  · refine ⟨(c.1, c.2.map toNumCell), ?_, hnm, ?_⟩
    · rw [List.getElem?_map, hj, Option.map_some', if_pos hcn]
    · show (c.2.map toNumCell)[i]? = some Val.na
      rw [List.getElem?_map, hi]
      rfl
  · refine ⟨c, ?_, hnm, hi⟩
    rw [List.getElem?_map, hj, Option.map_some', if_neg hcn]

theorem cellNa_coerceStep (d : DF) (n : String) (j i : ℕ) (nm : String)
    (h : CellNa d j i nm) : CellNa (coerceStep d n) j i nm := by
  unfold coerceStep
  split
  · exact cellNa_coerceCol d n j i nm h
  · exact h

theorem cellNa_foldl (cols : List String) (d : DF) (j i : ℕ) (nm : String)
    (h : CellNa d j i nm) : CellNa (cols.foldl coerceStep d) j i nm := by
  induction cols generalizing d with
  | nil => exact h
  | cons a t ih => exact ih (coerceStep d a) (cellNa_coerceStep d a j i nm h)

theorem cellNa_setCol (d : DF) (n : String) (col : List Val) (j i : ℕ) (nm : String)
    (hne : nm ≠ n) (h : CellNa d j i nm) : CellNa (setCol d n col) j i nm := by
  obtain ⟨c, hj, hnm, hi⟩ := h
  exact ⟨c, getElem?_setCol_untouched d n col j c hj (hnm ▸ hne), hnm, hi⟩

theorem cellNa_clean (df : DF) (j i : ℕ) (c : String × List Val)
    (h : df[j]? = some c) (hcell : c.2[i]? = some (Val.str ".."))
    (hedu : normName c.1 ≠ "Edu_gap") (hlab : normName c.1 ≠ "Labour_gap") :
    CellNa (clean df) j i (normName c.1) := by
  have h1 : CellNa (replaceDots df) j i c.1 := by
    refine ⟨(c.1, c.2.map replaceVal), ?_, rfl, ?_⟩
    · rw [getElem?_replaceDots, h]
      rfl
    · show (c.2.map replaceVal)[i]? = some Val.na
      rw [List.getElem?_map, hcell]
      rfl
  have h2 : CellNa (normHeaders (replaceDots df)) j i (normName c.1) := by
    obtain ⟨c1, hj1, hnm1, hi1⟩ := h1
    refine ⟨(normName c1.1, c1.2), ?_, by rw [hnm1], hi1⟩
    rw [getElem?_normHeaders, hj1]
    rfl
  have h3 : CellNa (preClean df) j i (normName c.1) := by
    unfold preClean coerceNumerics
    exact cellNa_foldl NUMERIC_COLS _ j i _ h2
  have h4 : CellNa (addEduGap (preClean df)) j i (normName c.1) := by
    unfold addEduGap
    exact cellNa_setCol _ _ _ j i _ hedu h3
  unfold clean addLabourGap
  exact cellNa_setCol _ _ _ j i _ hlab h4

theorem toNumCell_idem (v : Val) : toNumCell (toNumCell v) = toNumCell v :=
  toNumCell_eq_self _ (toNumCell_numNa v)

theorem mem_of_getElem?_some {α : Type} (l : List α) (j : ℕ) (a : α)
    (h : l[j]? = some a) : a ∈ l := by
  obtain ⟨hlt, heq⟩ := List.getElem?_eq_some_iff.mp h
  rw [← heq]
  exact List.getElem_mem hlt

theorem hasCol_of_getElem? (d : DF) (j : ℕ) (nm : String) (cells : List Val)
    (h : d[j]? = some (nm, cells)) : hasCol d nm = true := by
  unfold hasCol
  rw [List.any_eq_true]
  exact ⟨(nm, cells), mem_of_getElem?_some d j _ h, by simp⟩

theorem getElem?_coerceCol_self (d : DF) (j : ℕ) (nm : String) (cells : List Val)
    (h : d[j]? = some (nm, cells)) :
    (coerceCol d nm)[j]? = some (nm, cells.map toNumCell) := by
  unfold coerceCol
  rw [List.getElem?_map, h, Option.map_some', if_pos (by simp)]

theorem getElem?_foldl_coerce (cols : List String) (d : DF) (j : ℕ)
    (nm : String) (cells : List Val) (h : d[j]? = some (nm, cells)) :
    (nm ∉ cols ∧ (cols.foldl coerceStep d)[j]? = some (nm, cells)) ∨
    (nm ∈ cols ∧ (cols.foldl coerceStep d)[j]? = some (nm, cells.map toNumCell)) := by
  induction cols generalizing d cells with
  | nil => exact Or.inl ⟨List.not_mem_nil nm, h⟩
  | cons a t ih =>
      rw [List.foldl_cons]
      by_cases ha : nm = a
      · subst ha
        have hstep : (coerceStep d nm)[j]? = some (nm, cells.map toNumCell) := by
          unfold coerceStep
          rw [if_pos (hasCol_of_getElem? d j nm cells h)]
          exact getElem?_coerceCol_self d j nm cells h
        rcases ih (coerceStep d nm) (cells.map toNumCell) hstep with ⟨_, heq⟩ | ⟨_, heq⟩
        · exact Or.inr ⟨List.mem_cons_self nm t, heq⟩
        · refine Or.inr ⟨List.mem_cons_self nm t, ?_⟩
          rw [heq]
          have hmm : (cells.map toNumCell).map toNumCell = cells.map toNumCell := by
            rw [List.map_map]
            exact List.map_congr_left (fun v _ => toNumCell_idem v)
          rw [hmm]
      · have hstep : (coerceStep d a)[j]? = some (nm, cells) :=
          getElem?_coerceStep_untouched d a j (nm, cells) h ha
        rcases ih (coerceStep d a) cells hstep with ⟨hnm, heq⟩ | ⟨hm, heq⟩
        · refine Or.inl ⟨?_, heq⟩
          intro hmem
          rcases List.mem_cons.mp hmem with h1 | h2
          · exact ha h1
          · exact hnm h2
        · exact Or.inr ⟨List.mem_cons_of_mem a hm, heq⟩

theorem getElem?_setCol_either (d : DF) (n : String) (col : List Val) (j : ℕ)
    (c : String × List Val) (h : d[j]? = some c) :
    (setCol d n col)[j]? = some c ∨ (setCol d n col)[j]? = some (c.1, col) := by
  unfold setCol
  split
  · rw [List.getElem?_map, h, Option.map_some']
    by_cases hcn : (c.1 == n) = true
    · exact Or.inr (by rw [if_pos hcn])
    · exact Or.inl (by rw [if_neg hcn])
  · obtain ⟨hlt, _⟩ := List.getElem?_eq_some_iff.mp h
    exact Or.inl (by rw [List.getElem?_append_left hlt]; exact h)

theorem getElem?_preClean_name (df : DF) (j : ℕ) (c : String × List Val)
    (hc : df[j]? = some c) :
    (preClean df)[j]? = some (normName c.1, c.2.map replaceVal) ∨
    (preClean df)[j]? = some (normName c.1, (c.2.map replaceVal).map toNumCell) := by
  have h2 : (normHeaders (replaceDots df))[j]? =
      some (normName c.1, c.2.map replaceVal) := by
    rw [getElem?_normHeaders, getElem?_replaceDots, hc]
    rfl
  unfold preClean coerceNumerics
  rcases getElem?_foldl_coerce NUMERIC_COLS _ j _ _ h2 with ⟨_, heq⟩ | ⟨_, heq⟩
  · exact Or.inl heq
  · exact Or.inr heq

theorem getElem?_clean_name (df : DF) (j : ℕ) (c : String × List Val)
    (hc : df[j]? = some c) :
    ∃ cells, (clean df)[j]? = some (normName c.1, cells) := by
  have hpre : ∃ cells1, (preClean df)[j]? = some (normName c.1, cells1) := by
    rcases getElem?_preClean_name df j c hc with heq | heq
    · exact ⟨_, heq⟩
    · exact ⟨_, heq⟩
  obtain ⟨cells1, h1⟩ := hpre
  have hE : ∃ cells2, (addEduGap (preClean df))[j]? = some (normName c.1, cells2) := by
    unfold addEduGap
    rcases getElem?_setCol_either _ "Edu_gap" _ j _ h1 with heq | heq
    · exact ⟨_, heq⟩
    · exact ⟨_, heq⟩
  obtain ⟨cells2, h2⟩ := hE
  unfold clean addLabourGap
  rcases getElem?_setCol_either _ "Labour_gap" _ j _ h2 with heq | heq
  · exact ⟨_, heq⟩
  · exact ⟨_, heq⟩

theorem getElem?_clean_cells (df : DF) (j : ℕ) (c : String × List Val)
    (hc : df[j]? = some c)
    (hedu : normName c.1 ≠ "Edu_gap") (hlab : normName c.1 ≠ "Labour_gap") :
    (normName c.1 ∉ NUMERIC_COLS ∧
      (clean df)[j]? = some (normName c.1, c.2.map replaceVal)) ∨
    (normName c.1 ∈ NUMERIC_COLS ∧
      (clean df)[j]? = some (normName c.1, (c.2.map replaceVal).map toNumCell)) := by
  have h2 : (normHeaders (replaceDots df))[j]? =
      some (normName c.1, c.2.map replaceVal) := by
    rw [getElem?_normHeaders, getElem?_replaceDots, hc]
    rfl
  have hset : ∀ d : DF, ∀ cells : List Val, d[j]? = some (normName c.1, cells) →
      (addLabourGap (addEduGap d))[j]? = some (normName c.1, cells) := by
    intro d cells hd
    unfold addLabourGap addEduGap
    exact getElem?_setCol_untouched _ _ _ j _
      (getElem?_setCol_untouched _ _ _ j _ hd hedu) hlab
  have hfold := getElem?_foldl_coerce NUMERIC_COLS _ j _ _ h2
  rcases hfold with ⟨hnm, heq⟩ | ⟨hm, heq⟩
  · exact Or.inl ⟨hnm, hset _ _ heq⟩
  · exact Or.inr ⟨hm, hset _ _ heq⟩

/-! ### The gap columns of a cleaned frame -/

theorem getCol_clean_eduGap (df : DF) :
    getCol (clean df) "Edu_gap" = eduGapCol (preClean df) := by
  rw [getCol_clean_vs_edu df _ (by decide)]
  unfold addEduGap
  exact getCol_setCol_self _ _ _

theorem getCol_clean_labourGap (df : DF) :
    getCol (clean df) "Labour_gap" = labourGapCol (addEduGap (preClean df)) := by
  unfold clean addLabourGap
  exact getCol_setCol_self _ _ _

theorem eduGapCol_pre_eq (df : DF)
    (hF : hasCol (normHeaders (replaceDots df)) "F_secondary_educ" = true)
    (hM : hasCol (normHeaders (replaceDots df)) "M_secondary_educ" = true) :
    eduGapCol (preClean df) =
      subCols (getCol (preClean df) "M_secondary_educ")
        (getCol (preClean df) "F_secondary_educ") := by
  unfold eduGapCol
  rw [if_pos]
  rw [hasCol_preClean, hasCol_preClean, hF, hM]
  rfl

theorem eduGapCol_pre_na (df : DF)
    (h : hasCol (normHeaders (replaceDots df)) "F_secondary_educ" = false ∨
      hasCol (normHeaders (replaceDots df)) "M_secondary_educ" = false) :
    eduGapCol (preClean df) = List.replicate (nrows (preClean df)) Val.na := by
  unfold eduGapCol
  rw [if_neg]
  rcases h with h | h <;> rw [hasCol_preClean, hasCol_preClean, h] <;> simp

theorem labourGapCol_edu_eq (df : DF)
    (hF : hasCol (normHeaders (replaceDots df)) "F_Labour_force" = true)
    (hM : hasCol (normHeaders (replaceDots df)) "M_Labour_force" = true) :
    labourGapCol (addEduGap (preClean df)) =
      subCols (getCol (preClean df) "M_Labour_force")
        (getCol (preClean df) "F_Labour_force") := by
  unfold labourGapCol
  rw [if_pos]
  · rw [getCol_edu_vs_pre df _ (by decide), getCol_edu_vs_pre df _ (by decide)]
  · rw [hasCol_edu_vs_pre df _ (by decide), hasCol_edu_vs_pre df _ (by decide),
      hasCol_preClean, hasCol_preClean, hF, hM]
    rfl

theorem labourGapCol_edu_na (df : DF)
    (h : hasCol (normHeaders (replaceDots df)) "F_Labour_force" = false ∨
      hasCol (normHeaders (replaceDots df)) "M_Labour_force" = false) :
    labourGapCol (addEduGap (preClean df)) =
      List.replicate (nrows (addEduGap (preClean df))) Val.na := by
  unfold labourGapCol
  rw [if_neg]
  rcases h with h | h <;>
    rw [hasCol_edu_vs_pre df _ (by decide), hasCol_edu_vs_pre df _ (by decide),
      hasCol_preClean, hasCol_preClean, h] <;> simp

/-! ### Summary statistics helpers -/

theorem summarize_min_def (cells : List Val) :
    (summarize cells).min =
      (List.insertionSort (fun a b => a ≤ b) (numVals cells)).head? := rfl

theorem summarize_count_def (cells : List Val) :
    (summarize cells).count = (numVals cells).length := rfl

theorem summarize_min_le (cells : List Val) (m q : ℚ)
    (hm : (summarize cells).min = some m) (hq : q ∈ numVals cells) : m ≤ q := by
  rw [summarize_min_def] at hm
  have hqs : q ∈ List.insertionSort (fun a b => a ≤ b) (numVals cells) :=
    (List.mem_insertionSort _).mpr hq
  have hsorted := List.sorted_insertionSort (fun a b => a ≤ b) (numVals cells)
  cases hs : List.insertionSort (fun a b => a ≤ b) (numVals cells) with
  | nil => rw [hs] at hm; exact absurd hm (by simp)
  | cons a t =>
      rw [hs] at hm hqs hsorted
      have ham : a = m := by simpa using hm
      subst ham
      rcases List.mem_cons.mp hqs with rfl | hqt
      · exact le_refl q
      · exact (List.sorted_cons.mp hsorted).1 q hqt

theorem map_fst_pair {α β : Type} (l : List α) (f : α → β) :
    (l.map (fun c => (c, f c))).map Prod.fst = l := by
  induction l with
  | nil => rfl
  | cons a t ih => simp [ih]

/-! ### The claims -/

/-- C1: for every environment and file path, `load_data` returns exactly
one of a cleaned table with no error, or no table with a failure message —
never both, never neither. -/
theorem load_data_exclusive (env : FileEnv) (path : String) :
    (∃ t, load_data env path = (some t, none)) ∨
    (∃ e, load_data env path = (none, some e)) := by
  unfold load_data
  by_cases h : env.has path = false
  · rw [if_pos h]
    exact Or.inr ⟨_, rfl⟩
  · rw [if_neg h]
    cases env.read path with
    | error e => exact Or.inr ⟨_, rfl⟩
    | ok d => exact Or.inl ⟨_, rfl⟩

/-- C7: for every path whose file does not exist, `load_data` returns no
table and the `File not found` message carrying the path, and the result
does not depend on the parser at all (nothing is parsed). -/
theorem load_data_not_found (env : FileEnv) (path : String)
    (h : env.has path = false) :
    load_data env path = (none, some ("File not found at: " ++ path)) ∧
    ∀ r : String → Except String DF,
      load_data ⟨env.has, r⟩ path = (none, some ("File not found at: " ++ path)) := by
  constructor
  · unfold load_data
    rw [if_pos h]
  · intro r
    unfold load_data
    rw [if_pos h]

/-- C3: after cleaning, every cell of a column carrying a name of the
fixed numeric set is a number or the missing marker; a string cell whose
numeric parse fails becomes missing rather than an error; and a numeric
column absent from the table is skipped, leaving the frame unchanged. -/
theorem numeric_cols_clean_values (df : DF) (name : String)
    (hname : name ∈ NUMERIC_COLS) (c : String × List Val) (hc : c ∈ clean df)
    (h1 : c.1 = name) (v : Val) (hv : v ∈ c.2) :
    (v = Val.na ∨ ∃ q, v = Val.num q) ∧
    (∀ s, parseRat s = none → toNumCell (Val.str s) = Val.na) ∧
    (hasCol df name = false → coerceStep df name = df) := by
  refine ⟨goodFor_clean df name hname c hc h1 v hv, ?_, ?_⟩
  · intro s hs
    simp [toNumCell, hs]
  · intro h
    unfold coerceStep
    rw [if_neg (by simp [h])]

/-- C9: on a rectangular parsed table with `n` rows, cleaning preserves
the rows — every column of the returned table still has exactly `n`
cells, every parsed column survives at its own index under its trimmed
name, and (outside the two overwritten derived names) its cell at each
row `i` is precisely the cleaned cell parsed at row `i`: rows are never
dropped, duplicated or reordered. -/
theorem clean_preserves_rows (df : DF) (n : ℕ)
    (hw : ∀ c ∈ df, c.2.length = n) (hn : nrows df = n) :
    (∀ c ∈ clean df, c.2.length = n) ∧ nrows (clean df) = n ∧
    (∀ (j : ℕ) (c : String × List Val), df[j]? = some c →
      ∃ c', (clean df)[j]? = some c' ∧ c'.1 = normName c.1 ∧ c'.2.length = n ∧
        (normName c.1 ≠ "Edu_gap" → normName c.1 ≠ "Labour_gap" → ∀ i : ℕ,
          c'.2[i]? = c.2[i]?.map (fun v =>
            if normName c.1 ∈ NUMERIC_COLS then toNumCell (replaceVal v)
            else replaceVal v))) := by
  subst hn
  obtain ⟨hwf, hnr⟩ := wf_clean df hw
  refine ⟨hwf, hnr, ?_⟩
  intro j c hc
  by_cases hedu : normName c.1 = "Edu_gap"
  · obtain ⟨cells, heq⟩ := getElem?_clean_name df j c hc
    exact ⟨(normName c.1, cells), heq, rfl,
      hwf _ (mem_of_getElem?_some _ j _ heq),
      fun h1 _ _ => absurd hedu h1⟩
  by_cases hlab : normName c.1 = "Labour_gap"
  · obtain ⟨cells, heq⟩ := getElem?_clean_name df j c hc
    exact ⟨(normName c.1, cells), heq, rfl,
      hwf _ (mem_of_getElem?_some _ j _ heq),
      fun _ h2 _ => absurd hlab h2⟩
  rcases getElem?_clean_cells df j c hc hedu hlab with ⟨hnin, heq⟩ | ⟨hin, heq⟩
  · refine ⟨(normName c.1, c.2.map replaceVal), heq, rfl,
      hwf _ (mem_of_getElem?_some _ j _ heq), ?_⟩
    intro _ _ i
    show (c.2.map replaceVal)[i]? = _
    rw [List.getElem?_map]
    cases c.2[i]? <;> simp [hnin]
  · refine ⟨(normName c.1, (c.2.map replaceVal).map toNumCell), heq, rfl,
      hwf _ (mem_of_getElem?_some _ j _ heq), ?_⟩
    intro _ _ i
    show ((c.2.map replaceVal).map toNumCell)[i]? = _
    rw [List.getElem?_map, List.getElem?_map]
    cases c.2[i]? <;> simp [hin]

/-- C10: a column whose normalized name is neither in the fixed numeric
set nor one of the two derived names passes through `load_data`'s cleaning
with only its name trimmed and its `".."` cells made missing: every other
cell is returned unchanged. -/
theorem clean_untouched_columns (df : DF) (j : ℕ) (c : String × List Val)
    (hc : df[j]? = some c) (hnum : normName c.1 ∉ NUMERIC_COLS)
    (hedu : normName c.1 ≠ "Edu_gap") (hlab : normName c.1 ≠ "Labour_gap") :
    (clean df)[j]? = some (normName c.1, c.2.map replaceVal) ∧
    (∀ v : Val, v ≠ Val.str ".." → replaceVal v = v) :=
  ⟨getElem?_clean_untouched df j c hc (fun _ hn heq => hnum (heq ▸ hn)) hedu hlab,
    replaceVal_eq_self⟩

/-- C4: whenever both source columns of a gap exist in the
header-normalized table, the cleaned table's gap column is, row by row,
the male value minus the female value when both are numbers and missing
when either operand is missing — for `Edu_gap` over the secondary
education columns and for `Labour_gap` over the labour-force columns. -/
theorem gap_columns_rowwise (df : DF) :
    (hasCol (normHeaders (replaceDots df)) "F_secondary_educ" = true →
     hasCol (normHeaders (replaceDots df)) "M_secondary_educ" = true →
     ∀ (i : ℕ) (mv fv : Val),
       (getCol (clean df) "M_secondary_educ")[i]? = some mv →
       (getCol (clean df) "F_secondary_educ")[i]? = some fv →
       (∀ qm qf : ℚ, mv = Val.num qm → fv = Val.num qf →
        (getCol (clean df) "Edu_gap")[i]? = some (Val.num (qm - qf))) ∧
       ((mv = Val.na ∨ fv = Val.na) →
        (getCol (clean df) "Edu_gap")[i]? = some Val.na)) ∧
    (hasCol (normHeaders (replaceDots df)) "F_Labour_force" = true →
     hasCol (normHeaders (replaceDots df)) "M_Labour_force" = true →
     ∀ (i : ℕ) (mv fv : Val),
       (getCol (clean df) "M_Labour_force")[i]? = some mv →
       (getCol (clean df) "F_Labour_force")[i]? = some fv →
       (∀ qm qf : ℚ, mv = Val.num qm → fv = Val.num qf →
        (getCol (clean df) "Labour_gap")[i]? = some (Val.num (qm - qf))) ∧
       ((mv = Val.na ∨ fv = Val.na) →
        (getCol (clean df) "Labour_gap")[i]? = some Val.na)) := by
  constructor
  · intro hF hM i mv fv hmv hfv
    have hEq : getCol (clean df) "Edu_gap" =
        subCols (getCol (clean df) "M_secondary_educ")
          (getCol (clean df) "F_secondary_educ") := by
      rw [getCol_clean_eduGap, eduGapCol_pre_eq df hF hM,
        getCol_clean_other df _ (by decide) (by decide),
        getCol_clean_other df _ (by decide) (by decide)]
    constructor
    · intro qm qf hqm hqf
      subst hqm hqf
      rw [hEq]
      exact List.getElem?_zipWith_eq_some.mpr ⟨_, _, hmv, hfv, rfl⟩
    · intro hna
      rw [hEq]
      refine List.getElem?_zipWith_eq_some.mpr ⟨mv, fv, hmv, hfv, ?_⟩
      rcases hna with rfl | rfl
      · exact subVal_na_left fv
      · exact subVal_na_right mv
  · intro hF hM i mv fv hmv hfv
    have hEq : getCol (clean df) "Labour_gap" =
        subCols (getCol (clean df) "M_Labour_force")
          (getCol (clean df) "F_Labour_force") := by
      rw [getCol_clean_labourGap, labourGapCol_edu_eq df hF hM,
        getCol_clean_other df _ (by decide) (by decide),
        getCol_clean_other df _ (by decide) (by decide)]
    constructor
    · intro qm qf hqm hqf
      subst hqm hqf
      rw [hEq]
      exact List.getElem?_zipWith_eq_some.mpr ⟨_, _, hmv, hfv, rfl⟩
    · intro hna
      rw [hEq]
      refine List.getElem?_zipWith_eq_some.mpr ⟨mv, fv, hmv, hfv, ?_⟩
      rcases hna with rfl | rfl
      · exact subVal_na_left fv
      · exact subVal_na_right mv

/-- C5: when either source column of a gap is absent from the
header-normalized table, the cleaned table still carries that gap column
in its schema, and every one of its values is missing. -/
theorem gap_columns_missing_sources (df : DF) :
    ((hasCol (normHeaders (replaceDots df)) "F_secondary_educ" = false ∨
      hasCol (normHeaders (replaceDots df)) "M_secondary_educ" = false) →
     hasCol (clean df) "Edu_gap" = true ∧
     ∀ v ∈ getCol (clean df) "Edu_gap", v = Val.na) ∧
    ((hasCol (normHeaders (replaceDots df)) "F_Labour_force" = false ∨
      hasCol (normHeaders (replaceDots df)) "M_Labour_force" = false) →
     hasCol (clean df) "Labour_gap" = true ∧
     ∀ v ∈ getCol (clean df) "Labour_gap", v = Val.na) := by
  constructor
  · intro h
    refine ⟨hasCol_clean_edu df, ?_⟩
    intro v hv
    rw [getCol_clean_eduGap, eduGapCol_pre_na df h] at hv
    exact List.eq_of_mem_replicate hv
  · intro h
    refine ⟨hasCol_clean_labour df, ?_⟩
    intro v hv
    rw [getCol_clean_labourGap, labourGapCol_edu_na df h] at hv
    exact List.eq_of_mem_replicate hv

/-- A table on which the placeholder claim fails as universally stated: a
column literally named `Edu_gap` holding the placeholder, next to both
secondary-education source columns. -/
def cexDF : DF := [("Edu_gap", [Val.str ".."]),
                   ("F_secondary_educ", [Val.num 40]),
                   ("M_secondary_educ", [Val.num 55])]

/-- C2 (counterexample): in a column named `Edu_gap`, a cell holding
exactly `".."` does not read as missing after cleaning — the whole column
is overwritten by the derived subtraction, so the cell reads as the number
`55 - 40`, and a number is never the missing marker. -/
theorem dots_read_missing_cex :
    cexDF[0]? = some ("Edu_gap", [Val.str ".."]) ∧
    (clean cexDF)[0]? = some ("Edu_gap", [Val.num ((55 : ℚ) - 40)]) ∧
    ∀ q : ℚ, Val.num q ≠ Val.na :=
  ⟨rfl, rfl, fun _ h => Val.noConfusion h⟩

/-- C2 (amended): in every column that is not overwritten by the derived
columns — its normalized name is neither `Edu_gap` nor `Labour_gap` — a
cell holding exactly the placeholder `".."` reads as missing after
cleaning, and the replacement touches no other value: a cell different
from `".."` is not treated as the placeholder. -/
theorem dots_read_missing_amended (df : DF) (j i : ℕ) (c : String × List Val)
    (hc : df[j]? = some c) (hv : c.2[i]? = some (Val.str ".."))
    (hedu : normName c.1 ≠ "Edu_gap") (hlab : normName c.1 ≠ "Labour_gap") :
    (∃ c', (clean df)[j]? = some c' ∧ c'.1 = normName c.1 ∧
      c'.2[i]? = some Val.na) ∧
    (∀ v : Val, v ≠ Val.str ".." → replaceVal v = v) ∧
    replaceVal (Val.str "..") = Val.na := by
  refine ⟨?_, replaceVal_eq_self, rfl⟩
  obtain ⟨c', hj, hnm, hi⟩ := cellNa_clean df j i c hc hv hedu hlab
  exact ⟨c', hj, hnm, hi⟩

/-- For a numeric-dtype column the numeric value count is exactly the
non-null count — `describe`'s `count` row. -/
theorem numVals_length_eq_countP (cells : List Val) (h : isNumCol cells = true) :
    (numVals cells).length = cells.countP notNa := by
  induction cells with
  | nil => rfl
  | cons v t ih =>
      rw [isNumCol, List.all_cons, Bool.and_eq_true] at h
      have ht : isNumCol t = true := h.2
      cases v with
      | str s => exact absurd h.1 (by simp)
      | num q =>
          simp only [numVals, List.filterMap_cons, numOf, List.countP_cons, notNa,
            List.length_cons]
          rw [numVals] at ih
          rw [ih ht]
          simp
      | na =>
          simp only [numVals, List.filterMap_cons, numOf, List.countP_cons, notNa]
          rw [numVals] at ih
          rw [ih ht]
          simp

/-- A mixed frame on which the original summary claim fails: a string
column next to a numeric one. -/
def cex8DF : DF := [("Country", [Val.str "Ngoza"]), ("GII VALUE", [Val.num 1])]

/-- C8 (counterexample): on a mixed frame both candidate columns are kept
by the presence filter, yet the summary carries a row only for the
numeric column — `describe` drops the non-numeric `Country` column, so no
row with its count/mean/std/min/quartiles/max is produced for it. -/
theorem safe_numeric_summary_cex :
    ["Country", "GII VALUE"].filter (fun c => hasCol cex8DF c) =
      ["Country", "GII VALUE"] ∧
    (safe_numeric_summary cex8DF ["Country", "GII VALUE"]).map Prod.fst =
      ["GII VALUE"] ∧
    (["GII VALUE"] : List String) ≠ ["Country", "GII VALUE"] :=
  ⟨rfl, rfl, by decide⟩

/-- C8 (amended): the summary helper first keeps only the candidate names
present in the table (in order); an empty remainder yields the explicitly
empty result, never an error.  On a non-empty remainder it follows pandas
`describe`: when at least one kept column is numeric the result has
exactly one row per numeric kept column, in order (non-numeric kept
columns are dropped); when no kept column is numeric every kept column
gets an object-dtype row instead.  Each numeric row carries the column's
count of non-missing values — equal to its non-null count — and the
aggregate statistics, with the reported minimum a lower bound of every
value; each object row carries the column's non-null count and its count
of distinct non-null values. -/
theorem safe_numeric_summary_amended (df : DF) (cols : List String) :
    (cols.filter (fun c => hasCol df c) = [] → safe_numeric_summary df cols = []) ∧
    ((cols.filter (fun c => hasCol df c)).filter (fun c => isNumCol (getCol df c)) ≠ [] →
      (safe_numeric_summary df cols).map Prod.fst =
        (cols.filter (fun c => hasCol df c)).filter (fun c => isNumCol (getCol df c))) ∧
    (cols.filter (fun c => hasCol df c) ≠ [] →
      (cols.filter (fun c => hasCol df c)).filter (fun c => isNumCol (getCol df c)) = [] →
      (safe_numeric_summary df cols).map Prod.fst = cols.filter (fun c => hasCol df c)) ∧
    (∀ p ∈ safe_numeric_summary df cols,
      hasCol df p.1 = true ∧
      (∀ s, p.2 = DescribeRow.numeric s →
        isNumCol (getCol df p.1) = true ∧
        s = summarize (getCol df p.1) ∧
        s.count = (numVals (getCol df p.1)).length ∧
        s.count = (getCol df p.1).countP notNa ∧
        (∀ m q : ℚ, s.min = some m → q ∈ numVals (getCol df p.1) → m ≤ q)) ∧
      (∀ k u, p.2 = DescribeRow.object k u →
        k = (getCol df p.1).countP notNa ∧
        u = ((getCol df p.1).filter (fun v => v ≠ Val.na)).dedup.length)) := by
  have hdef : safe_numeric_summary df cols =
      (if (cols.filter (fun c => hasCol df c)).isEmpty = true then []
       else if ((cols.filter (fun c => hasCol df c)).filter
           (fun c => isNumCol (getCol df c))).isEmpty = true then
         (cols.filter (fun c => hasCol df c)).map (fun c => (c, DescribeRow.object
           ((getCol df c).countP notNa)
           (((getCol df c).filter (fun v => v ≠ Val.na)).dedup.length)))
       else ((cols.filter (fun c => hasCol df c)).filter
           (fun c => isNumCol (getCol df c))).map
         (fun c => (c, DescribeRow.numeric (summarize (getCol df c))))) := rfl
  refine ⟨?_, ?_, ?_, ?_⟩
  · intro h
    rw [hdef, if_pos (by rw [h]; rfl)]
  · intro hB
    have hA : ¬((cols.filter (fun c => hasCol df c)).isEmpty = true) := by
      rw [List.isEmpty_iff]
      intro hA0
      apply hB
      rw [hA0]
      rfl
    have hBe : ¬(((cols.filter (fun c => hasCol df c)).filter
        (fun c => isNumCol (getCol df c))).isEmpty = true) := by
      rw [List.isEmpty_iff]
      exact hB
    rw [hdef, if_neg hA, if_neg hBe]
    exact map_fst_pair _ _
  · intro hA hB
    have hAe : ¬((cols.filter (fun c => hasCol df c)).isEmpty = true) := by
      rw [List.isEmpty_iff]
      exact hA
    rw [hdef, if_neg hAe, if_pos (by rw [hB]; rfl)]
    exact map_fst_pair _ _
  · intro p hp
    rw [hdef] at hp
    by_cases hA : ((cols.filter (fun c => hasCol df c)).isEmpty = true)
    · rw [if_pos hA] at hp
      exact absurd hp (List.not_mem_nil p)
    · rw [if_neg hA] at hp
      by_cases hB : (((cols.filter (fun c => hasCol df c)).filter
          (fun c => isNumCol (getCol df c))).isEmpty = true)
      · rw [if_pos hB] at hp
        obtain ⟨c, hcmem, rfl⟩ := List.mem_map.mp hp
        refine ⟨(List.mem_filter.mp hcmem).2, ?_, ?_⟩
        · intro s hs
          exact absurd hs (by simp)
        · intro k u hku
          injection hku with h1 h2
          exact ⟨h1.symm, h2.symm⟩
      · rw [if_neg hB] at hp
        obtain ⟨c, hcmem, rfl⟩ := List.mem_map.mp hp
        have hcA := List.mem_filter.mp hcmem
        have hnum : isNumCol (getCol df c) = true := hcA.2
        refine ⟨(List.mem_filter.mp hcA.1).2, ?_, ?_⟩
        · intro s hs
          injection hs with h1
          subst h1
          exact ⟨hnum, rfl, summarize_count_def _,
            (summarize_count_def _).trans (numVals_length_eq_countP _ hnum),
            fun m q hm hq => summarize_min_le _ m q hm hq⟩
        · intro k u hku
          exact absurd hku (by simp)

/-! ### Concrete frames instantiating the claims -/

/-- A one-row table carrying both gap sources, as in the spec's example
(`Country="Ngoza", F_secondary_educ=40, M_secondary_educ=55`). -/
def exWF : DF := [("Country", [Val.str "Ngoza"]),
                  ("F_secondary_educ", [Val.num 40]),
                  ("M_secondary_educ", [Val.num 55]),
                  ("F_Labour_force", [Val.num 50]),
                  ("M_Labour_force", [Val.num 80])]

/-- A table with none of the gap source columns. -/
def exNoSrc : DF := [("Country", [Val.str "A", Val.str "B"])]

/-- A table whose numeric column holds an unparseable string. -/
def exBad : DF := [("GII VALUE", [Val.str "abc"])]

/-- A table holding the placeholder in an ordinary column. -/
def exDots : DF := [("Country", [Val.str ".."])]

/-- A dead filesystem: no path exists. -/
def exEnv : FileEnv := ⟨fun _ => false, fun _ => Except.error "io"⟩

theorem load_data_not_found_witness :
    load_data exEnv "gender_inequality_index.csv" =
      (none, some ("File not found at: " ++ "gender_inequality_index.csv")) :=
  (load_data_not_found exEnv "gender_inequality_index.csv" rfl).1

theorem numeric_cols_clean_values_witness :
    (Val.na = Val.na ∨ ∃ q, Val.na = Val.num q) ∧
    (∀ s, parseRat s = none → toNumCell (Val.str s) = Val.na) ∧
    (hasCol exBad "GII VALUE" = false → coerceStep exBad "GII VALUE" = exBad) :=
  numeric_cols_clean_values exBad "GII VALUE" (by decide) ("GII VALUE", [Val.na])
    (by decide) rfl Val.na (by decide)

theorem gap_columns_rowwise_witness :
    (getCol (clean exWF) "Edu_gap")[0]? = some (Val.num ((55 : ℚ) - 40)) ∧
    (getCol (clean exWF) "Labour_gap")[0]? = some (Val.num ((80 : ℚ) - 50)) :=
  ⟨((gap_columns_rowwise exWF).1 (by decide) (by decide) 0 (Val.num 55) (Val.num 40)
      rfl rfl).1 55 40 rfl rfl,
   ((gap_columns_rowwise exWF).2 (by decide) (by decide) 0 (Val.num 80) (Val.num 50)
      rfl rfl).1 80 50 rfl rfl⟩

theorem gap_columns_missing_sources_witness :
    hasCol (clean exNoSrc) "Edu_gap" = true ∧
    hasCol (clean exNoSrc) "Labour_gap" = true :=
  ⟨((gap_columns_missing_sources exNoSrc).1 (Or.inl (by decide))).1,
   ((gap_columns_missing_sources exNoSrc).2 (Or.inl (by decide))).1⟩

theorem clean_idempotent_witness : clean (clean exWF) = clean exWF :=
  clean_idempotent exWF (by decide)

theorem clean_preserves_rows_witness :
    (∀ c ∈ clean exWF, c.2.length = 1) ∧ nrows (clean exWF) = 1 ∧
    (∀ (j : ℕ) (c : String × List Val), exWF[j]? = some c →
      ∃ c', (clean exWF)[j]? = some c' ∧ c'.1 = normName c.1 ∧ c'.2.length = 1 ∧
        (normName c.1 ≠ "Edu_gap" → normName c.1 ≠ "Labour_gap" → ∀ i : ℕ,
          c'.2[i]? = c.2[i]?.map (fun v =>
            if normName c.1 ∈ NUMERIC_COLS then toNumCell (replaceVal v)
            else replaceVal v))) :=
  clean_preserves_rows exWF 1 (by decide) (by decide)

theorem clean_untouched_columns_witness :
    (clean exWF)[0]? = some ("Country", [Val.str "Ngoza"]) ∧
    (∀ v : Val, v ≠ Val.str ".." → replaceVal v = v) :=
  clean_untouched_columns exWF 0 ("Country", [Val.str "Ngoza"]) rfl
    (by decide) (by decide) (by decide)

theorem dots_read_missing_amended_witness :
    (∃ c', (clean exDots)[0]? = some c' ∧ c'.1 = normName "Country" ∧
      c'.2[0]? = some Val.na) ∧
    (∀ v : Val, v ≠ Val.str ".." → replaceVal v = v) ∧
    replaceVal (Val.str "..") = Val.na :=
  dots_read_missing_amended exDots 0 0 ("Country", [Val.str ".."]) rfl rfl
    (by decide) (by decide)

theorem safe_numeric_summary_amended_witness :
    safe_numeric_summary exWF ["Nope"] = [] :=
  (safe_numeric_summary_amended exWF ["Nope"]).1 (by decide)
